import Mathlib

/-!
Verification of the 2D Ising Monte Carlo engine (Ising_montecarlo.py).

The Python source is shallowly embedded: the lattice is a total function on
`Fin L × Fin L` with integer spins, exact rationals stand for the float
parameters, and each stochastic loop becomes a step relation driven by an
explicit oracle of random draws (site indices and uniform variates).  The
Metropolis acceptance test compares the rational draw with the real
exponential, exactly as the source compares `np.random.random()` with
`np.exp(-beta * dE)`.
-/

namespace Ising

/-- An L×L spin lattice, indexed by wrapped coordinates. Spins live in ℤ
(always ±1 for reachable lattices, mirroring the int8 array). -/
abbrev Lattice (L : ℕ) := Fin L × Fin L → ℤ

/-- Embeds `init_lattice_nb`: every cell receives -1 when the random bit is 0
and +1 otherwise, the bits being supplied by the oracle. -/
def init_lattice_nb {L : ℕ} (bits : Fin L × Fin L → Fin 2) : Lattice L :=
  fun p => if bits p = 0 then -1 else 1

/-- Python index `(i + 1) % L` on a row/column index. -/
def wrapS {L : ℕ} (i : Fin L) : Fin L :=
  ⟨(i.1 + 1) % L, Nat.mod_lt _ (Nat.zero_lt_of_lt i.2)⟩

/-- Python index `(i - 1) % L` (Python's modulo is nonnegative, so this is
`(i + L - 1) % L` for in-range `i`). -/
def wrapP {L : ℕ} (i : Fin L) : Fin L :=
  ⟨(i.1 + L - 1) % L, Nat.mod_lt _ (Nat.zero_lt_of_lt i.2)⟩

/-- The sum of the four toroidal nearest neighbours, exactly as computed in
`delta_energy_nb` (lines 44-49 of the source). -/
def neighborSum {L : ℕ} (lat : Lattice L) (i j : Fin L) : ℤ :=
  lat (wrapS i, j) + lat (wrapP i, j) + lat (i, wrapS j) + lat (i, wrapP j)

/-- Embeds `delta_energy_nb`: the energy change if the spin at `(i, j)` is
flipped, `2 * s * (J * nb + h)`. -/
def delta_energy_nb {L : ℕ} (lat : Lattice L) (i j : Fin L) (J h : ℚ) : ℚ :=
  2 * (lat (i, j) : ℚ) * (J * (neighborSum lat i j : ℚ) + h)

/-- Embeds the accepted-flip assignment `lattice[i, j] = -lattice[i, j]`. -/
def flipAt {L : ℕ} (lat : Lattice L) (i j : Fin L) : Lattice L :=
  Function.update lat (i, j) (-(lat (i, j)))

/-- `lattice.sum()`: the total spin of the lattice. -/
def totalSum {L : ℕ} (lat : Lattice L) : ℤ := ∑ p : Fin L × Fin L, lat p

/-- Every cell holds +1 or -1 (the data-model invariant of the spin grid). -/
def isSpinLat {L : ℕ} (lat : Lattice L) : Prop := ∀ p, lat p = 1 ∨ lat p = -1

/-- The Metropolis acceptance criterion of line 71:
`dE <= 0 or np.random.random() < np.exp(-beta * dE)`, where `u` is the fresh
uniform draw. -/
def accepts (beta dE u : ℚ) : Prop :=
  dE ≤ 0 ∨ (u : ℝ) < Real.exp (-(beta : ℝ) * (dE : ℝ))

/-- One record of the random oracle for a single trial flip: the uniformly
drawn site `(i, j)` and the uniform variate `u ∈ [0,1)` consumed by the
acceptance test. -/
structure Rand (L : ℕ) where
  i : Fin L
  j : Fin L
  u : ℚ

/-- One trial flip of the loop body of `metropolis_step_nb` (lines 67-72):
evaluate `delta_energy_nb` at the drawn site and flip exactly when the
Metropolis criterion accepts. -/
def metTrial {L : ℕ} (beta J h : ℚ) (lat : Lattice L) (r : Rand L)
    (lat' : Lattice L) : Prop :=
  (accepts beta (delta_energy_nb lat r.i r.j J h) r.u ∧ lat' = flipAt lat r.i r.j) ∨
  (¬ accepts beta (delta_energy_nb lat r.i r.j J h) r.u ∧ lat' = lat)

/-- Sequential composition of trial steps along a list of oracle records. -/
inductive Trials {σ ρ : Type _} (step : σ → ρ → σ → Prop) : σ → List ρ → σ → Prop
  | nil (s : σ) : Trials step s [] s
  | cons {s s' s'' : σ} {r : ρ} {rs : List ρ} :
      step s r s' → Trials step s' rs s'' → Trials step s (r :: rs) s''

/-- Embeds `metropolis_step_nb`: one sweep is `L * L` sequential trial flips,
each consuming one oracle record. -/
def metropolis_step_nb {L : ℕ} (beta J h : ℚ) (lat : Lattice L)
    (rs : List (Rand L)) (lat' : Lattice L) : Prop :=
  rs.length = L * L ∧ Trials (metTrial beta J h) lat rs lat'

/-- Wrap an arbitrary integer index modulo `L` (the spec's description of the
toroidal boundary: both axis indices wrapped modulo L). -/
def zWrap {L : ℕ} (hL : 0 < L) (z : ℤ) : Fin L :=
  ⟨(z % (L : ℤ)).toNat, by
    have hLz : (0 : ℤ) < (L : ℤ) := by exact_mod_cast hL
    have h1 : 0 ≤ z % (L : ℤ) := Int.emod_nonneg z hLz.ne'
    have h2 : z % (L : ℤ) < (L : ℤ) := Int.emod_lt_of_pos z hLz
    omega⟩

/-- The spec's neighbour sum: the four nearest neighbours at displacements
±1 along each axis, with the displaced index wrapped modulo L. -/
def neighborSumSpec {L : ℕ} (lat : Lattice L) (i j : Fin L) : ℤ :=
  lat (zWrap i.pos ((i : ℤ) + 1), j) + lat (zWrap i.pos ((i : ℤ) - 1), j) +
  lat (i, zWrap j.pos ((j : ℤ) + 1)) + lat (i, zWrap j.pos ((j : ℤ) - 1))

lemma zWrap_succ {L : ℕ} (i : Fin L) : zWrap i.pos ((i : ℤ) + 1) = wrapS i := by
  apply Fin.ext
  show (((i : ℤ) + 1) % (L : ℤ)).toNat = (i.1 + 1) % L
  have h : ((i : ℤ) + 1) = ((i.1 + 1 : ℕ) : ℤ) := by push_cast; ring
  rw [h, ← Int.natCast_mod, Int.toNat_natCast]

lemma zWrap_pred {L : ℕ} (i : Fin L) : zWrap i.pos ((i : ℤ) - 1) = wrapP i := by
  apply Fin.ext
  show (((i : ℤ) - 1) % (L : ℤ)).toNat = (i.1 + L - 1) % L
  have hL : 1 ≤ L := i.pos
  have h1 : ((i : ℤ) - 1) % (L : ℤ) = ((i : ℤ) - 1 + L) % (L : ℤ) := by
    have := Int.add_mul_emod_self_left (a := (i : ℤ) - 1) (b := (L : ℤ)) (c := 1)
    rw [mul_one] at this
    exact this.symm
  have h2 : (i : ℤ) - 1 + L = ((i.1 + L - 1 : ℕ) : ℤ) := by
    have : ((i.1 + L - 1 : ℕ) : ℤ) = (i.1 : ℤ) + L - 1 := by
      push_cast [Nat.cast_sub (by omega : 1 ≤ i.1 + L)]
      ring
    omega
  rw [h1, h2, ← Int.natCast_mod, Int.toNat_natCast]

lemma neighborSumSpec_eq {L : ℕ} (lat : Lattice L) (i j : Fin L) :
    neighborSumSpec lat i j = neighborSum lat i j := by
  unfold neighborSumSpec neighborSum
  rw [zWrap_succ, zWrap_pred, zWrap_succ, zWrap_pred]

/-- Embeds `delta_E_and_dM` (lines 380-405): interaction energy change,
magnetization change `-2 s`, and the harmonic-bias potential change, with no
external-field term. -/
def delta_E_and_dM {L : ℕ} (lat : Lattice L) (i j : Fin L)
    (J k_bias M0 M : ℚ) : ℚ × ℚ :=
  let s : ℚ := lat (i, j)
  let nb : ℚ := neighborSum lat i j
  let dE_int := 2 * s * J * nb
  let dM := -2 * s
  let dV := (1 / 2) * k_bias * ((M + dM - M0) ^ 2 - (M - M0) ^ 2)
  (dE_int + dV, dM)

/-- One trial flip of the biased loops of `run_window_us` (lines 431-447):
the state is the lattice together with the incrementally tracked
magnetization `M`; on acceptance the site is flipped and `M` advances by the
`dM` returned by `delta_E_and_dM`. -/
def umbTrial {L : ℕ} (beta J k_bias M0 : ℚ) (st : Lattice L × ℤ) (r : Rand L)
    (st' : Lattice L × ℤ) : Prop :=
  (accepts beta (delta_E_and_dM st.1 r.i r.j J k_bias M0 (st.2 : ℚ)).1 r.u ∧
     st'.1 = flipAt st.1 r.i r.j ∧
     (st'.2 : ℚ) = (st.2 : ℚ) + (delta_E_and_dM st.1 r.i r.j J k_bias M0 (st.2 : ℚ)).2) ∨
  (¬ accepts beta (delta_E_and_dM st.1 r.i r.j J k_bias M0 (st.2 : ℚ)).1 r.u ∧ st' = st)

lemma totalSum_flipAt {L : ℕ} (lat : Lattice L) (i j : Fin L) :
    totalSum (flipAt lat i j) = totalSum lat - 2 * lat (i, j) := by
  unfold totalSum flipAt
  rw [Finset.sum_update_of_mem (Finset.mem_univ _)]
  have h : ∑ p ∈ Finset.univ \ {(i, j)}, lat p =
      (∑ p : Fin L × Fin L, lat p) - lat (i, j) := by
    rw [Finset.sum_eq_sum_diff_singleton_add (Finset.mem_univ (i, j)) lat]
    ring
  rw [h]
  ring

lemma isSpinLat_flipAt {L : ℕ} {lat : Lattice L} (h : isSpinLat lat)
    (i j : Fin L) : isSpinLat (flipAt lat i j) := by
  intro p
  unfold flipAt
  by_cases hp : p = (i, j)
  · subst hp
    rw [Function.update_same]
    rcases h (i, j) with h1 | h1 <;> simp [h1]
  · rw [Function.update_noteq hp]
    exact h p

lemma isSpinLat_init {L : ℕ} (bits : Fin L × Fin L → Fin 2) :
    isSpinLat (init_lattice_nb bits) := by
  intro p
  unfold init_lattice_nb
  by_cases h : bits p = 0 <;> simp [h]

lemma totalSum_bound {L : ℕ} {lat : Lattice L} (h : isSpinLat lat) :
    -(L * L : ℤ) ≤ totalSum lat ∧ totalSum lat ≤ (L * L : ℤ) := by
  have habs : |totalSum lat| ≤ (L * L : ℤ) := by
    calc |totalSum lat| ≤ ∑ p : Fin L × Fin L, |lat p| :=
          Finset.abs_sum_le_sum_abs _ _
    _ = ∑ _p : Fin L × Fin L, (1 : ℤ) := by
          apply Finset.sum_congr rfl
          intro p _
          rcases h p with h1 | h1 <;> simp [h1]
    _ = (L * L : ℤ) := by
          rw [Finset.sum_const, Finset.card_univ, Fintype.card_prod,
            Fintype.card_fin]
          simp [mul_comm]
  exact abs_le.mp habs

lemma flipAt_ne {L : ℕ} {lat : Lattice L} (h : isSpinLat lat) (i j : Fin L) :
    flipAt lat i j ≠ lat := by
  intro heq
  have := congrFun heq (i, j)
  rw [flipAt, Function.update_same] at this
  rcases h (i, j) with h1 | h1 <;> rw [h1] at this <;> omega

/-- A single umbrella trial step preserves the coupling between tracked `M`
and the true lattice sum, and preserves the spin invariant. -/
lemma umbTrial_inv {L : ℕ} {beta J k_bias M0 : ℚ} {st st' : Lattice L × ℤ}
    {r : Rand L} (hstep : umbTrial beta J k_bias M0 st r st')
    (hspin : isSpinLat st.1) (hM : st.2 = totalSum st.1) :
    st'.2 = totalSum st'.1 ∧ isSpinLat st'.1 := by
  rcases hstep with ⟨_, h1, h2⟩ | ⟨_, h1⟩
  · have hdm : (delta_E_and_dM st.1 r.i r.j J k_bias M0 (st.2 : ℚ)).2 =
        ((-2 * st.1 (r.i, r.j) : ℤ) : ℚ) := by
      unfold delta_E_and_dM
      push_cast
      ring
    rw [hdm] at h2
    have h2' : st'.2 = st.2 + (-2 * st.1 (r.i, r.j)) := by exact_mod_cast h2
    constructor
    · rw [h2', h1, totalSum_flipAt, hM]; ring
    · rw [h1]; exact isSpinLat_flipAt hspin _ _
  · rw [h1]; exact ⟨hM, hspin⟩

lemma umbTrials_inv {L : ℕ} {beta J k_bias M0 : ℚ} {st st' : Lattice L × ℤ}
    {rs : List (Rand L)}
    (h : Trials (umbTrial beta J k_bias M0) st rs st')
    (hspin : isSpinLat st.1) (hM : st.2 = totalSum st.1) :
    st'.2 = totalSum st'.1 ∧ isSpinLat st'.1 := by
  induction h with
  | nil s => exact ⟨hM, hspin⟩
  | cons hstep _hrest ih =>
      rcases umbTrial_inv hstep hspin hM with ⟨h1, h2⟩
      exact ih h2 h1

/-- Concrete 1×1 all-up lattice used to instantiate theorems. -/
def latOne1 : Lattice 1 := fun _ => 1

/-- Concrete 2×2 all-up lattice used to instantiate theorems. -/
def latOnes2 : Lattice 2 := fun _ => 1

/-- Claim C1: every call to the Metropolis sweep performs exactly L² trial
flips, each at an oracle-drawn site, and each trial flips the chosen spin if
and only if its ΔE ≤ 0 or the fresh uniform draw is strictly below
exp(−β·ΔE) — that is, iff the `accepts` criterion holds. -/
theorem c1_metropolis_sweep {L : ℕ} (beta J h : ℚ) :
    (∀ (lat lat' : Lattice L) (rs : List (Rand L)),
        metropolis_step_nb beta J h lat rs lat' → rs.length = L * L) ∧
    (∀ (lat lat' : Lattice L) (r : Rand L), isSpinLat lat →
        metTrial beta J h lat r lat' →
        (lat' = flipAt lat r.i r.j ↔
          accepts beta (delta_energy_nb lat r.i r.j J h) r.u)) := by
  constructor
  · intro lat lat' rs hm
    exact hm.1
  · intro lat lat' r hspin htr
    constructor
    · intro heq
      rcases htr with ⟨hacc, _⟩ | ⟨hnacc, hid⟩
      · exact hacc
      · exact absurd (heq ▸ hid : flipAt lat r.i r.j = lat).symm
          (Ne.symm (flipAt_ne hspin r.i r.j))
    · intro hacc
      rcases htr with ⟨_, heq⟩ | ⟨hnacc, _⟩
      · exact heq
      · exact absurd hacc hnacc

/-- Witness for C1 at a concrete accepted trial on the 1×1 lattice with
J = 1, h = −4 (so ΔE = 0 and the move is accepted deterministically). -/
theorem c1_metropolis_sweep_witness :
    ([(⟨0, 0, 0⟩ : Rand 1)].length = 1 * 1) ∧
    (flipAt latOne1 0 0 = flipAt latOne1 0 0 ↔
      accepts 1 (delta_energy_nb latOne1 0 0 1 (-4)) 0) :=
  ⟨(c1_metropolis_sweep (L := 1) 1 1 (-4)).1 latOne1 (flipAt latOne1 0 0)
      [⟨0, 0, 0⟩]
      ⟨rfl, Trials.cons
        (Or.inl ⟨Or.inl (by norm_num [delta_energy_nb, neighborSum, latOne1]), rfl⟩)
        (Trials.nil _)⟩,
   (c1_metropolis_sweep (L := 1) 1 1 (-4)).2 latOne1 (flipAt latOne1 0 0)
      ⟨0, 0, 0⟩ (fun _ => Or.inl rfl)
      (Or.inl ⟨Or.inl (by norm_num [delta_energy_nb, neighborSum, latOne1]), rfl⟩)⟩

/-- Claim C2: for every ±1 lattice and in-range site, `delta_energy_nb`
returns exactly 2·s·(J·nb + h), where nb sums the four nearest neighbours
with both axis indices wrapped modulo L. -/
theorem c2_delta_energy {L : ℕ} (lat : Lattice L) (i j : Fin L) (J h : ℚ)
    (hspin : isSpinLat lat) :
    delta_energy_nb lat i j J h =
      2 * (lat (i, j) : ℚ) * (J * (neighborSumSpec lat i j : ℚ) + h) := by
  rw [neighborSumSpec_eq]
  rfl

/-- Witness for C2 on the concrete 1×1 lattice. -/
theorem c2_delta_energy_witness :
    delta_energy_nb latOne1 0 0 1 0 =
      2 * (latOne1 (0, 0) : ℚ) * (1 * (neighborSumSpec latOne1 0 0 : ℚ) + 0) :=
  c2_delta_energy latOne1 0 0 1 0 (fun _ => Or.inl rfl)

/-- Claim C3: for every ±1 lattice, `delta_E_and_dM` returns ΔM = −2·s and a
total delta equal to 2·s·J·nb plus the bias delta
½·k_bias·[(M+ΔM−M0)² − (M−M0)²]; the interaction part coincides with the
unbiased `delta_energy_nb` at h = 0, i.e. no external-field term enters the
biased path. -/
theorem c3_delta_biased {L : ℕ} (lat : Lattice L) (i j : Fin L)
    (J k_bias M0 M : ℚ) (hspin : isSpinLat lat) :
    (delta_E_and_dM lat i j J k_bias M0 M).2 = -2 * (lat (i, j) : ℚ) ∧
    (delta_E_and_dM lat i j J k_bias M0 M).1 =
      2 * (lat (i, j) : ℚ) * J * (neighborSumSpec lat i j : ℚ) +
        (1 / 2) * k_bias *
          ((M + (-2 * (lat (i, j) : ℚ)) - M0) ^ 2 - (M - M0) ^ 2) ∧
    (delta_E_and_dM lat i j J k_bias M0 M).1 =
      delta_energy_nb lat i j J 0 +
        (1 / 2) * k_bias *
          ((M + (delta_E_and_dM lat i j J k_bias M0 M).2 - M0) ^ 2 -
            (M - M0) ^ 2) := by
  refine ⟨rfl, ?_, ?_⟩
  · rw [neighborSumSpec_eq]
    rfl
  · unfold delta_E_and_dM delta_energy_nb
    ring

/-- Witness for C3 on the concrete 2×2 lattice. -/
theorem c3_delta_biased_witness :
    (delta_E_and_dM latOnes2 0 0 (-1) 2 3 4).2 = -2 * (latOnes2 (0, 0) : ℚ) ∧
    (delta_E_and_dM latOnes2 0 0 (-1) 2 3 4).1 =
      2 * (latOnes2 (0, 0) : ℚ) * (-1) * (neighborSumSpec latOnes2 0 0 : ℚ) +
        (1 / 2) * 2 *
          ((4 + (-2 * (latOnes2 (0, 0) : ℚ)) - 3) ^ 2 - (4 - 3) ^ 2) ∧
    (delta_E_and_dM latOnes2 0 0 (-1) 2 3 4).1 =
      delta_energy_nb latOnes2 0 0 (-1) 0 +
        (1 / 2) * 2 *
          ((4 + (delta_E_and_dM latOnes2 0 0 (-1) 2 3 4).2 - 3) ^ 2 -
            (4 - 3) ^ 2) :=
  c3_delta_biased latOnes2 0 0 (-1) 2 3 4 (fun _ => Or.inl rfl)

/-- Claim C10: evaluating a proposed flip's energy change never mutates the
simulation state: in both trial relations the lattice is left untouched at
every site other than the chosen one, and when the Metropolis test rejects,
the whole state is unchanged — only the accepted-flip branch writes. -/
theorem c10_delta_frame {L : ℕ} (beta J h k_bias M0 : ℚ) :
    (∀ (lat lat' : Lattice L) (r : Rand L), metTrial beta J h lat r lat' →
        (∀ p, p ≠ (r.i, r.j) → lat' p = lat p) ∧
        (¬ accepts beta (delta_energy_nb lat r.i r.j J h) r.u → lat' = lat)) ∧
    (∀ (st st' : Lattice L × ℤ) (r : Rand L),
        umbTrial beta J k_bias M0 st r st' →
        (∀ p, p ≠ (r.i, r.j) → st'.1 p = st.1 p) ∧
        (¬ accepts beta (delta_E_and_dM st.1 r.i r.j J k_bias M0 (st.2 : ℚ)).1 r.u →
          st' = st)) := by
  constructor
  · intro lat lat' r htr
    rcases htr with ⟨hacc, heq⟩ | ⟨hnacc, heq⟩
    · refine ⟨?_, fun hn => absurd hacc hn⟩
      intro p hp
      rw [heq, flipAt, Function.update_noteq hp]
    · exact ⟨fun p _ => by rw [heq], fun _ => heq⟩
  · intro st st' r htr
    rcases htr with ⟨hacc, heq, _⟩ | ⟨hnacc, heq⟩
    · refine ⟨?_, fun hn => absurd hacc hn⟩
      intro p hp
      rw [heq, flipAt, Function.update_noteq hp]
    · exact ⟨fun p _ => by rw [heq], fun _ => heq⟩

/-- Witness for C10 at concrete accepted trials of both kinds. -/
theorem c10_delta_frame_witness :
    ((∀ p, p ≠ ((0 : Fin 1), (0 : Fin 1)) →
        flipAt latOne1 0 0 p = latOne1 p) ∧
      (¬ accepts 1 (delta_energy_nb latOne1 0 0 1 (-4)) 0 →
        flipAt latOne1 0 0 = latOne1)) ∧
    ((∀ p, p ≠ ((0 : Fin 2), (0 : Fin 2)) →
        (flipAt latOnes2 0 0, (2 : ℤ)).1 p = (latOnes2, (4 : ℤ)).1 p) ∧
      (¬ accepts 1 (delta_E_and_dM latOnes2 0 0 (-1) 0 0 ((4 : ℤ) : ℚ)).1 0 →
        (flipAt latOnes2 0 0, (2 : ℤ)) = (latOnes2, (4 : ℤ)))) :=
  ⟨(c10_delta_frame (L := 1) 1 1 (-4) 0 0).1 latOne1 (flipAt latOne1 0 0)
      ⟨0, 0, 0⟩
      (Or.inl ⟨Or.inl (by norm_num [delta_energy_nb, neighborSum, latOne1]), rfl⟩),
   (c10_delta_frame (L := 2) 1 (-1) 0 0 0).2 (latOnes2, 4)
      (flipAt latOnes2 0 0, 2) ⟨0, 0, 0⟩
      (Or.inl ⟨Or.inl (by norm_num [delta_E_and_dM, neighborSum, latOnes2]), rfl,
        by norm_num [delta_E_and_dM, neighborSum, latOnes2]⟩)⟩

/-- Claim C4: in the biased run, starting from M equal to the initial lattice
sum, the tracked M stays equal to the recomputed total lattice sum after any
number of trial flips, hence always lies in [−L², L²]; and every accepted
flip changes M by exactly ±2. -/
theorem c4_tracked_magnetization {L : ℕ} (beta J k_bias M0 : ℚ) :
    (∀ (lat0 : Lattice L) (rs : List (Rand L)) (st : Lattice L × ℤ),
        isSpinLat lat0 →
        Trials (umbTrial beta J k_bias M0) (lat0, totalSum lat0) rs st →
        st.2 = totalSum st.1 ∧ isSpinLat st.1 ∧
          -(L * L : ℤ) ≤ st.2 ∧ st.2 ≤ (L * L : ℤ)) ∧
    (∀ (lat : Lattice L) (M : ℤ) (r : Rand L) (st' : Lattice L × ℤ),
        isSpinLat lat → umbTrial beta J k_bias M0 (lat, M) r st' →
        st'.1 ≠ lat → st'.2 = M + 2 ∨ st'.2 = M - 2) := by
  constructor
  · intro lat0 rs st hspin htr
    rcases umbTrials_inv htr hspin rfl with ⟨hM, hsp⟩
    rcases totalSum_bound hsp with ⟨hlo, hhi⟩
    exact ⟨hM, hsp, by omega, by omega⟩
  · intro lat M r st' hspin htr hne
    rcases htr with ⟨_, _, h2⟩ | ⟨_, h1⟩
    · have hdm : (delta_E_and_dM lat r.i r.j J k_bias M0 (M : ℚ)).2 =
          ((-2 * lat (r.i, r.j) : ℤ) : ℚ) := by
        unfold delta_E_and_dM
        push_cast
        ring
      rw [hdm] at h2
      have h2' : st'.2 = M + (-2 * lat (r.i, r.j)) := by exact_mod_cast h2
      rcases hspin (r.i, r.j) with hs | hs <;> rw [hs] at h2'
      · right; omega
      · left; omega
    · exact absurd (congrArg Prod.fst h1) hne

/-- Witness for C4: one accepted trial on the 2×2 all-up lattice takes the
tracked M from `totalSum latOnes2` to `totalSum latOnes2 - 2`. -/
theorem c4_tracked_magnetization_witness :
    ((totalSum latOnes2 - 2 = totalSum (flipAt latOnes2 0 0)) ∧
      isSpinLat (flipAt latOnes2 0 0) ∧
      -(2 * 2 : ℤ) ≤ totalSum latOnes2 - 2 ∧
      totalSum latOnes2 - 2 ≤ (2 * 2 : ℤ)) ∧
    (totalSum latOnes2 - 2 = totalSum latOnes2 + 2 ∨
      totalSum latOnes2 - 2 = totalSum latOnes2 - 2) :=
  ⟨(c4_tracked_magnetization (L := 2) 1 (-1) 0 0).1 latOnes2 [⟨0, 0, 0⟩]
      (flipAt latOnes2 0 0, totalSum latOnes2 - 2) (fun _ => Or.inl rfl)
      (Trials.cons
        (Or.inl ⟨Or.inl (by norm_num [delta_E_and_dM, neighborSum, latOnes2]),
          rfl, by push_cast [delta_E_and_dM, neighborSum, latOnes2]; ring⟩)
        (Trials.nil _)),
   (c4_tracked_magnetization (L := 2) 1 (-1) 0 0).2 latOnes2 (totalSum latOnes2)
      ⟨0, 0, 0⟩ (flipAt latOnes2 0 0, totalSum latOnes2 - 2)
      (fun _ => Or.inl rfl)
      (Or.inl ⟨Or.inl (by norm_num [delta_E_and_dM, neighborSum, latOnes2]),
        rfl, by push_cast [delta_E_and_dM, neighborSum, latOnes2]; ring⟩)
      (flipAt_ne (fun _ => Or.inl rfl) 0 0)⟩

/-- Python `int()` applied to a rational: truncation toward zero. -/
def pyInt (q : ℚ) : ℤ := if q < 0 then ⌈q⌉ else ⌊q⌋

/-- Embeds `np.linspace(a, b, n)` (uniform grid including both endpoints). -/
def linspace (a b : ℚ) (n : ℕ) : List ℚ :=
  (List.range n).map (fun i : ℕ => a + (i : ℚ) * (b - a) / ((n : ℚ) - 1))

/-- The bin index of line 449:
`int((M - Mgrid[0]) / (Mgrid[-1] - Mgrid[0]) * (bins - 1))`. -/
def binIdx (grid : List ℚ) (bins : ℕ) (M : ℚ) : ℤ :=
  pyInt ((M - grid.headD 0) / (grid.getLastD 0 - grid.headD 0) * ((bins : ℚ) - 1))

lemma linspace_length (a b : ℚ) (n : ℕ) : (linspace a b n).length = n := by
  simp [linspace]

lemma linspace_headD (a b : ℚ) {n : ℕ} (hn : 1 ≤ n) :
    (linspace a b n).headD 0 = a := by
  obtain ⟨m, rfl⟩ : ∃ m, n = m + 1 := ⟨n - 1, by omega⟩
  unfold linspace
  rw [List.range_succ_eq_map]
  simp

lemma linspace_getLastD (a b : ℚ) {n : ℕ} (hn : 2 ≤ n) :
    (linspace a b n).getLastD 0 = b := by
  obtain ⟨m, rfl⟩ : ∃ m, n = m + 1 := ⟨n - 1, by omega⟩
  unfold linspace
  rw [List.range_succ, List.map_append]
  have hm : (1 : ℚ) ≤ (m : ℚ) := by exact_mod_cast (by omega : 1 ≤ m)
  have hm0 : (m : ℚ) ≠ 0 := by linarith
  have : ((m + 1 : ℕ) : ℚ) - 1 = (m : ℚ) := by push_cast; ring
  simp only [List.map_cons, List.map_nil, List.getLastD_concat, this]
  field_simp

/-- The grid bin index is in range for every tracked magnetization in
[−L², L²], for every grid `linspace(−L², L², bins)` with at least two bins. -/
lemma binIdx_bound {L bins : ℕ} (hb : 2 ≤ bins) (hL : 1 ≤ L) (M : ℤ)
    (h1 : -(L * L : ℤ) ≤ M) (h2 : M ≤ (L * L : ℤ)) :
    0 ≤ binIdx (linspace (-((L : ℚ) * L)) ((L : ℚ) * L) bins) bins (M : ℚ) ∧
    binIdx (linspace (-((L : ℚ) * L)) ((L : ℚ) * L) bins) bins (M : ℚ) ≤
      (bins : ℤ) - 1 := by
  have hN : (0 : ℚ) < (L : ℚ) * L := by
    have : (0 : ℚ) < (L : ℚ) := by exact_mod_cast (by omega : 0 < L)
    positivity
  have hhead : (linspace (-((L : ℚ) * L)) ((L : ℚ) * L) bins).headD 0 =
      -((L : ℚ) * L) := linspace_headD _ _ (by omega)
  have hlast : (linspace (-((L : ℚ) * L)) ((L : ℚ) * L) bins).getLastD 0 =
      (L : ℚ) * L := linspace_getLastD _ _ hb
  unfold binIdx
  rw [hhead, hlast]
  set q : ℚ := ((M : ℚ) - -((L : ℚ) * L)) / ((L : ℚ) * L - -((L : ℚ) * L)) *
    ((bins : ℚ) - 1) with hq
  have hM1 : (0 : ℚ) ≤ (M : ℚ) + (L : ℚ) * L := by
    have : ((-(L * L : ℤ) : ℤ) : ℚ) ≤ (M : ℚ) := by exact_mod_cast h1
    push_cast at this
    linarith
  have hM2 : (M : ℚ) ≤ (L : ℚ) * L := by
    have : (M : ℚ) ≤ (((L * L : ℤ) : ℤ) : ℚ) := by exact_mod_cast h2
    push_cast at this
    linarith
  have hbq : (0 : ℚ) ≤ (bins : ℚ) - 1 := by
    have : (1 : ℚ) ≤ (bins : ℚ) := by exact_mod_cast (by omega : 1 ≤ bins)
    linarith
  have hq0 : 0 ≤ q := by
    rw [hq]
    apply mul_nonneg _ hbq
    apply div_nonneg _ (by linarith)
    linarith
  have hq1 : q ≤ (bins : ℚ) - 1 := by
    rw [hq]
    have ht : ((M : ℚ) - -((L : ℚ) * L)) / ((L : ℚ) * L - -((L : ℚ) * L)) ≤ 1 := by
      rw [div_le_one (by linarith)]
      linarith
    calc ((M : ℚ) - -((L : ℚ) * L)) / ((L : ℚ) * L - -((L : ℚ) * L)) *
        ((bins : ℚ) - 1) ≤ 1 * ((bins : ℚ) - 1) :=
          mul_le_mul_of_nonneg_right ht hbq
    _ = (bins : ℚ) - 1 := one_mul _
  unfold pyInt
  rw [if_neg (not_lt.mpr hq0)]
  constructor
  · exact Int.le_floor.mpr (by exact_mod_cast hq0)
  · have : (⌊q⌋ : ℚ) ≤ ((bins : ℤ) - 1 : ℤ) := by
      calc (⌊q⌋ : ℚ) ≤ q := Int.floor_le q
      _ ≤ (bins : ℚ) - 1 := hq1
      _ = (((bins : ℤ) - 1 : ℤ) : ℚ) := by push_cast; ring
    exact_mod_cast this

/-- Claim C5: for every bin count ≥ 2 and every reachable tracked
magnetization M ∈ [−L², L²], the histogram bin index computed by the linear
mapping of line 449 lies in [0, bins−1]. -/
theorem c5_bin_index_in_range {L bins : ℕ} (hb : 2 ≤ bins) (hL : 1 ≤ L)
    (M : ℤ) (h1 : -(L * L : ℤ) ≤ M) (h2 : M ≤ (L * L : ℤ)) :
    0 ≤ binIdx (linspace (-((L : ℚ) * L)) ((L : ℚ) * L) bins) bins (M : ℚ) ∧
    binIdx (linspace (-((L : ℚ) * L)) ((L : ℚ) * L) bins) bins (M : ℚ) ≤
      (bins : ℤ) - 1 :=
  binIdx_bound hb hL M h1 h2

/-- Witness for C5 at L = 2, bins = 5, M = 2. -/
theorem c5_bin_index_in_range_witness :
    0 ≤ binIdx (linspace (-((2 : ℚ) * 2)) ((2 : ℚ) * 2) 5) 5 ((2 : ℤ) : ℚ) ∧
    binIdx (linspace (-((2 : ℚ) * 2)) ((2 : ℚ) * 2) 5) 5 ((2 : ℤ) : ℚ) ≤
      (5 : ℤ) - 1 :=
  c5_bin_index_in_range (L := 2) (by norm_num) (by norm_num) 2
    (by norm_num) (by norm_num)

/-- Python list indexing semantics for `hist[idx]`: a negative index wraps
from the end. (All reachable indices are proven nonnegative.) -/
def pyIdx (n : ℕ) (idx : ℤ) : ℕ := (if idx < 0 then idx + n else idx).toNat

/-- The histogram update `hist[idx] += 1` of line 450. -/
def bump (hist : List ℚ) (idx : ℤ) : List ℚ :=
  hist.set (pyIdx hist.length idx) (hist.getD (pyIdx hist.length idx) 0 + 1)

lemma sum_set_succ : ∀ (l : List ℚ) (n : ℕ), n < l.length →
    (l.set n (l.getD n 0 + 1)).sum = l.sum + 1 := by
  intro l
  induction l with
  | nil => intro n h; simp at h
  | cons a t ih =>
      intro n h
      cases n with
      | zero =>
          simp only [List.set, List.getD_cons_zero, List.sum_cons]
          ring
      | succ m =>
          simp only [List.set, List.getD_cons_succ, List.sum_cons]
          rw [ih m (by simpa using h)]
          ring

lemma bump_sum {hist : List ℚ} {idx : ℤ} (h0 : 0 ≤ idx)
    (h1 : idx < (hist.length : ℤ)) :
    (bump hist idx).sum = hist.sum + 1 ∧ (bump hist idx).length = hist.length := by
  have hpy : pyIdx hist.length idx = idx.toNat := by
    unfold pyIdx
    rw [if_neg (not_lt.mpr h0)]
  have hlt : idx.toNat < hist.length := by omega
  unfold bump
  rw [hpy]
  exact ⟨sum_set_succ _ _ hlt, by simp⟩

/-- The measurement loop of `run_window_us` (lines 440-450): each iteration
performs one biased trial flip and then increments the histogram bin of the
post-trial tracked magnetization. -/
inductive recTrials {L : ℕ} (beta J k_bias M0 : ℚ) (grid : List ℚ) (bins : ℕ) :
    Lattice L × ℤ → List ℚ → List (Rand L) → Lattice L × ℤ → List ℚ → Prop
  | nil (st : Lattice L × ℤ) (hist : List ℚ) : recTrials beta J k_bias M0 grid bins st hist [] st hist
  | cons {st st' stF : Lattice L × ℤ} {hist histF : List ℚ} {r : Rand L}
      {rs : List (Rand L)} :
      umbTrial beta J k_bias M0 st r st' →
      recTrials beta J k_bias M0 grid bins st'
        (bump hist (binIdx grid bins (st'.2 : ℚ))) rs stF histF →
      recTrials beta J k_bias M0 grid bins st hist (r :: rs) stF histF

/-- Embeds `run_window_us` (lines 408-452): a fresh lattice is initialized
from the oracle bits, `M` starts at the lattice total sum, `n_eq` biased
trial flips run without recording, then `n_steps` biased trial flips each
record the post-trial `M` into the histogram over the grid
`linspace(-L*L, L*L, bins)`; the result is the histogram and the grid. -/
def run_window_us {L : ℕ} (T J k_bias M0 : ℚ) (n_eq n_steps bins : ℕ)
    (bits : Fin L × Fin L → Fin 2) (rsEq rsMeas : List (Rand L))
    (result : List ℚ × List ℚ) : Prop :=
  rsEq.length = n_eq ∧ rsMeas.length = n_steps ∧
  ∃ (st1 stF : Lattice L × ℤ) (histF : List ℚ),
    Trials (umbTrial (1 / T) J k_bias M0)
      (init_lattice_nb bits, totalSum (init_lattice_nb bits)) rsEq st1 ∧
    recTrials (1 / T) J k_bias M0 (linspace (-((L : ℚ) * L)) ((L : ℚ) * L) bins)
      bins st1 (List.replicate bins 0) rsMeas stF histF ∧
    result = (histF, linspace (-((L : ℚ) * L)) ((L : ℚ) * L) bins)

/-- Along the recording loop, as long as the state is consistent (tracked M
equals the lattice sum, all spins ±1) every recorded bin index is in range,
so each trial adds exactly one histogram count. -/
lemma recTrials_hist {L bins : ℕ} {beta J k_bias M0 : ℚ} (hb : 2 ≤ bins)
    (hL : 1 ≤ L) {st : Lattice L × ℤ} {hist : List ℚ} {rs : List (Rand L)}
    {stF : Lattice L × ℤ} {histF : List ℚ}
    (h : recTrials beta J k_bias M0 (linspace (-((L : ℚ) * L)) ((L : ℚ) * L) bins)
      bins st hist rs stF histF) :
    isSpinLat st.1 → st.2 = totalSum st.1 → hist.length = bins →
    histF.sum = hist.sum + rs.length ∧ histF.length = bins := by
  induction h with
  | nil st hist =>
      intro _ _ hlen
      simp [hlen]
  | cons hstep hrest ih =>
      intro hspin hM hlen
      rename_i st st' stF hist histF r rs
      obtain ⟨hM', hspin'⟩ := umbTrial_inv hstep hspin hM
      obtain ⟨hlo, hhi⟩ := totalSum_bound hspin'
      have hb1 : -(L * L : ℤ) ≤ st'.2 := by omega
      have hb2 : st'.2 ≤ (L * L : ℤ) := by omega
      obtain ⟨hi0, hi1⟩ := binIdx_bound hb hL st'.2 hb1 hb2
      have hlt : binIdx (linspace (-((L : ℚ) * L)) ((L : ℚ) * L) bins) bins
          ((st'.2 : ℤ) : ℚ) < (hist.length : ℤ) := by
        rw [hlen]; omega
      obtain ⟨hsum, hlength⟩ := bump_sum hi0 hlt
      obtain ⟨hsum', hlen'⟩ := ih hspin' hM' (by rw [hlength, hlen])
      refine ⟨?_, hlen'⟩
      rw [hsum', hsum, List.length_cons]
      push_cast
      ring

/-- Claim C9 (amended): `run_window_us` initializes a fresh lattice, performs
`n_eq` single biased trial flips with no recording, then `n_steps` single
biased trial flips, each contributing exactly one histogram increment at the
post-trial M — so the histogram total is `n_steps`, not `n_steps · L²` — on a
grid of `bins` bins spanning [−L², L²]. -/
theorem c9_run_window_histogram {L : ℕ} (T J k_bias M0 : ℚ)
    (n_eq n_steps bins : ℕ) (bits : Fin L × Fin L → Fin 2)
    (rsEq rsMeas : List (Rand L)) (result : List ℚ × List ℚ)
    (hb : 2 ≤ bins) (hL : 1 ≤ L)
    (hrun : run_window_us T J k_bias M0 n_eq n_steps bins bits rsEq rsMeas result) :
    result.1.sum = (n_steps : ℚ) ∧ result.1.length = bins ∧
    result.2.headD 0 = -((L : ℚ) * L) ∧ result.2.getLastD 0 = (L : ℚ) * L ∧
    result.2.length = bins := by
  obtain ⟨hne, hns, st1, stF, histF, heq, hrec, hres⟩ := hrun
  obtain ⟨hM1, hspin1⟩ := umbTrials_inv heq (isSpinLat_init bits) rfl
  obtain ⟨hsum, hlenF⟩ := recTrials_hist hb hL hrec hspin1 hM1
    (List.length_replicate _ _)
  rw [hres]
  refine ⟨?_, hlenF, linspace_headD _ _ (by omega), linspace_getLastD _ _ hb,
    linspace_length _ _ _⟩
  rw [hsum, hns]
  simp

/-- Witness for C9's amended theorem at a concrete one-trial run. -/
theorem c9_run_window_histogram_witness :
    (bump (List.replicate 5 0)
        (binIdx (linspace (-((2 : ℚ) * 2)) ((2 : ℚ) * 2) 5) 5 ((2 : ℤ) : ℚ)),
      linspace (-((2 : ℚ) * 2)) ((2 : ℚ) * 2) 5).1.sum = ((1 : ℕ) : ℚ) ∧
    (bump (List.replicate 5 0)
        (binIdx (linspace (-((2 : ℚ) * 2)) ((2 : ℚ) * 2) 5) 5 ((2 : ℤ) : ℚ)),
      linspace (-((2 : ℚ) * 2)) ((2 : ℚ) * 2) 5).1.length = 5 ∧
    (bump (List.replicate 5 0)
        (binIdx (linspace (-((2 : ℚ) * 2)) ((2 : ℚ) * 2) 5) 5 ((2 : ℤ) : ℚ)),
      linspace (-((2 : ℚ) * 2)) ((2 : ℚ) * 2) 5).2.headD 0 = -((2 : ℚ) * 2) ∧
    (bump (List.replicate 5 0)
        (binIdx (linspace (-((2 : ℚ) * 2)) ((2 : ℚ) * 2) 5) 5 ((2 : ℤ) : ℚ)),
      linspace (-((2 : ℚ) * 2)) ((2 : ℚ) * 2) 5).2.getLastD 0 = (2 : ℚ) * 2 ∧
    (bump (List.replicate 5 0)
        (binIdx (linspace (-((2 : ℚ) * 2)) ((2 : ℚ) * 2) 5) 5 ((2 : ℤ) : ℚ)),
      linspace (-((2 : ℚ) * 2)) ((2 : ℚ) * 2) 5).2.length = 5 :=
  c9_run_window_histogram (L := 2) 1 (-1) 0 0 0 1 5 (fun _ => 1) []
    [⟨0, 0, 0⟩] _ (by norm_num) (by norm_num)
    ⟨rfl, rfl, (latOnes2, totalSum latOnes2), (flipAt latOnes2 0 0, 2), _,
      Trials.nil _,
      recTrials.cons
        (Or.inl ⟨Or.inl (by norm_num [delta_E_and_dM, neighborSum, latOnes2]),
          rfl, by
            have h4 : totalSum latOnes2 = 4 := by simp [totalSum, latOnes2]
            rw [h4]
            norm_num [delta_E_and_dM, neighborSum, latOnes2]⟩)
        (recTrials.nil _ _),
      rfl⟩

/-- Counterexample to C9 as stated: with L = 2, n_eq = 0, n_steps = 1 the
run completes with a histogram holding a single count — not the
`n_steps · L² = 4` counts that `n_steps` sweeps of L² recorded trials would
produce. -/
theorem c9_counterexample :
    run_window_us (L := 2) 1 (-1) 0 0 0 1 5 (fun _ => 1) [] [⟨0, 0, 0⟩]
      ([0, 0, 0, 1, 0], linspace (-((2 : ℚ) * 2)) ((2 : ℚ) * 2) 5) ∧
    ([(0 : ℚ), 0, 0, 1, 0]).sum = 1 ∧ ¬ ((1 : ℚ) = ((1 * (2 * 2) : ℕ) : ℚ)) := by
  refine ⟨⟨rfl, rfl, (latOnes2, totalSum latOnes2), (flipAt latOnes2 0 0, 2), _,
    Trials.nil _,
    recTrials.cons
      (Or.inl ⟨Or.inl (by norm_num [delta_E_and_dM, neighborSum, latOnes2]),
        rfl, by
          have h4 : totalSum latOnes2 = 4 := by simp [totalSum, latOnes2]
          rw [h4]
          norm_num [delta_E_and_dM, neighborSum, latOnes2]⟩)
      (recTrials.nil _ _),
    ?_⟩, by norm_num, by norm_num⟩
  show ([(0 : ℚ), 0, 0, 1, 0], linspace (-((2 : ℚ) * 2)) ((2 : ℚ) * 2) 5) =
    (bump (List.replicate 5 0)
        (binIdx (linspace (-((2 : ℚ) * 2)) ((2 : ℚ) * 2) 5) 5 ((2 : ℤ) : ℚ)),
      linspace (-((2 : ℚ) * 2)) ((2 : ℚ) * 2) 5)
  have hidx : binIdx (linspace (-((2 : ℚ) * 2)) ((2 : ℚ) * 2) 5) 5
      ((2 : ℤ) : ℚ) = 3 := by
    norm_num [binIdx, pyInt, linspace, List.range_succ]
  rw [hidx]
  have hbump : bump (List.replicate 5 0) 3 = [0, 0, 0, 1, 0] := by
    norm_num [bump, pyIdx, List.replicate, List.set, List.getD]
    rfl
  rw [hbump]

/-- Counterexample to C6 as stated: a call of `run_window_us` whose
configuration is invalid on three counts (T ≤ 0, n_steps = 0, bins = 1)
still completes normally and returns a (degenerate) histogram — no
validation failure is raised at entry. -/
theorem c6_counterexample :
    run_window_us (L := 2) (-1) 1 0 0 0 0 1 (fun _ => 1) [] []
      (List.replicate 1 0, linspace (-((2 : ℚ) * 2)) ((2 : ℚ) * 2) 1) ∧
    (-1 : ℚ) ≤ 0 ∧ (0 : ℕ) ≤ 0 ∧ (1 : ℕ) ≤ 1 :=
  ⟨⟨rfl, rfl, _, _, _, Trials.nil _, recTrials.nil _ _, rfl⟩,
    by norm_num, le_refl _, le_refl _⟩

/-- Claim C6 (amended): the entry points perform no input validation —
`run_window_us` accepts every invalid configuration (such as T ≤ 0 together
with n_steps = 0 and bins ≤ 1) and completes normally, returning the
zero histogram instead of rejecting at entry. -/
theorem c6_no_validation {L : ℕ} (T J k_bias M0 : ℚ) (bins : ℕ)
    (bits : Fin L × Fin L → Fin 2) (hT : T ≤ 0) (hbins : bins ≤ 1) :
    run_window_us T J k_bias M0 0 0 bins bits [] []
      (List.replicate bins 0, linspace (-((L : ℚ) * L)) ((L : ℚ) * L) bins) :=
  ⟨rfl, rfl, _, _, _, Trials.nil _, recTrials.nil _ _, rfl⟩

/-- Witness for C6's amended theorem at T = −2, bins = 0, L = 1. -/
theorem c6_no_validation_witness :
    run_window_us (L := 1) (-2) 1 0 0 0 0 0 (fun _ => 1) [] []
      (List.replicate 0 0, linspace (-((1 : ℚ) * 1)) ((1 : ℚ) * 1) 0) :=
  c6_no_validation (L := 1) (-2) 1 0 0 0 (fun _ => 1) (by norm_num) (by norm_num)

/-- Python index `(i + r) % L` used by the correlation loops. -/
def shiftR {L : ℕ} (i : Fin L) (r : ℕ) : Fin L :=
  ⟨(i.1 + r) % L, Nat.mod_lt _ (Nat.zero_lt_of_lt i.2)⟩

/-- Per-step instantaneous magnetization `total_spin / N`. -/
def mInst {L : ℕ} (lat : Lattice L) : ℚ := (totalSum lat : ℚ) / ((L : ℚ) * L)

/-- Per-step spatial average of `s(i,j) * s((i+r)%L, j)` (lines 193-201). -/
def pairAvg {L : ℕ} (lat : Lattice L) (r : ℕ) : ℚ :=
  ((∑ p : Fin L × Fin L, lat p * lat (shiftR p.1 r, p.2) : ℤ) : ℚ) / ((L : ℚ) * L)

/-- Per-step spatial average of the shifted spin `s((i+r)%L, j)`. -/
def shiftAvg {L : ℕ} (lat : Lattice L) (r : ℕ) : ℚ :=
  ((∑ p : Fin L × Fin L, lat (shiftR p.1 r, p.2) : ℤ) : ℚ) / ((L : ℚ) * L)

/-- The time average `sum_m / n_steps` over the list of post-sweep lattices. -/
def mAvgOf {L : ℕ} (lats : List (Lattice L)) (n : ℕ) : ℚ :=
  (lats.map mInst).sum / n

/-- The correlation array of lines 205-210:
`corr[r] = sum_pair[r]/n_steps - m_avg * (sum_shift[r]/n_steps)` for
r = 0..L/2. -/
def corrFull {L : ℕ} (lats : List (Lattice L)) (n : ℕ) : List ℚ :=
  (List.range (L / 2 + 1)).map (fun r : ℕ =>
    (lats.map (fun lat => pairAvg lat r)).sum / n -
      mAvgOf lats n * ((lats.map (fun lat => shiftAvg lat r)).sum / n))

/-- Per-step column pair average `c / L` of lines 247-251. -/
def colBar {L : ℕ} (lat : Lattice L) (col : Fin L) (r : ℕ) : ℚ :=
  ((∑ i : Fin L, lat (i, col) * lat (shiftR i r, col) : ℤ) : ℚ) / (L : ℚ)

/-- The column correlation array of line 255:
`corr = corr_sum / n_steps - m_avg ** 2`. -/
def corrCol {L : ℕ} (lats : List (Lattice L)) (col : Fin L) (n : ℕ) : List ℚ :=
  (List.range (L / 2 + 1)).map (fun r : ℕ =>
    (lats.map (fun lat => colBar lat col r)).sum / n - (mAvgOf lats n) ^ 2)

/-- Like `Trials`, but additionally collecting the state after every step
(the lattices seen by the measurement accumulators). -/
inductive TrialsTrace {σ ρ : Type _} (step : σ → ρ → σ → Prop) :
    σ → List ρ → List σ → Prop
  | nil (s : σ) : TrialsTrace step s [] []
  | cons {s s' : σ} {r : ρ} {rs : List ρ} {tr : List σ} :
      step s r s' → TrialsTrace step s' rs tr →
      TrialsTrace step s (r :: rs) (s' :: tr)

/-- A step-preserved predicate is preserved by any `Trials` chain. -/
lemma Trials_pred {σ ρ : Type _} {step : σ → ρ → σ → Prop} {P : σ → Prop}
    {s : σ} {rs : List ρ} {s' : σ} (h : Trials step s rs s')
    (hstep : ∀ a r b, step a r b → P a → P b) : P s → P s' := by
  induction h with
  | nil s => exact id
  | cons h1 _h2 ih => exact fun hp => ih (hstep _ _ _ h1 hp)

/-- A step-preserved predicate holds at every state of a `TrialsTrace`. -/
lemma TrialsTrace_pred {σ ρ : Type _} {step : σ → ρ → σ → Prop} {P : σ → Prop}
    {s : σ} {rs : List ρ} {tr : List σ} (h : TrialsTrace step s rs tr)
    (hstep : ∀ a r b, step a r b → P a → P b) : P s → ∀ t ∈ tr, P t := by
  induction h with
  | nil s => intro _ t ht; simp at ht
  | cons h1 _h2 ih =>
      intro hp t ht
      rcases List.mem_cons.mp ht with rfl | ht
      · exact hstep _ _ _ h1 hp
      · exact ih (hstep _ _ _ h1 hp) t ht

lemma TrialsTrace_length {σ ρ : Type _} {step : σ → ρ → σ → Prop}
    {s : σ} {rs : List ρ} {tr : List σ} (h : TrialsTrace step s rs tr) :
    tr.length = rs.length := by
  induction h with
  | nil s => rfl
  | cons _ _ ih => simp [ih]

lemma metTrial_spin {L : ℕ} {beta J h : ℚ} {lat lat' : Lattice L} {r : Rand L}
    (ht : metTrial beta J h lat r lat') (hs : isSpinLat lat) :
    isSpinLat lat' := by
  rcases ht with ⟨_, rfl⟩ | ⟨_, rfl⟩
  · exact isSpinLat_flipAt hs _ _
  · exact hs

lemma sweep_spin {L : ℕ} {beta J h : ℚ} {lat lat' : Lattice L}
    {rs : List (Rand L)} (hsw : metropolis_step_nb beta J h lat rs lat')
    (hs : isSpinLat lat) : isSpinLat lat' :=
  Trials_pred hsw.2 (fun _ _ _ ht hp => metTrial_spin ht hp) hs

/-- Embeds `measure_spin_stats_explicit_nb` (lines 155-211): equilibrate for
`n_eq` sweeps, then for each of `n_steps` sweeps accumulate the per-step
magnetization and the pair/shift spatial averages; return the time-averaged
magnetization and the connected correlation array. -/
def measure_spin_stats_explicit_nb {L : ℕ} (T h : ℚ) (n_eq n_steps : ℕ)
    (J : ℚ) (bits : Fin L × Fin L → Fin 2)
    (eqOr measOr : List (List (Rand L))) (result : ℚ × List ℚ) : Prop :=
  eqOr.length = n_eq ∧ measOr.length = n_steps ∧
  ∃ (latEq : Lattice L) (lats : List (Lattice L)),
    Trials (metropolis_step_nb (1 / T) J h) (init_lattice_nb bits) eqOr latEq ∧
    TrialsTrace (metropolis_step_nb (1 / T) J h) latEq measOr lats ∧
    result = (mAvgOf lats n_steps, corrFull lats n_steps)

/-- Embeds `measure_column_correlation_nb` (lines 215-256): as above but the
sweeps run at h = 0 (hard-coded in the source) and the accumulator is
restricted to one column, with the simpler `corr_sum/n - m_avg²` form. -/
def measure_column_correlation_nb {L : ℕ} (T : ℚ) (col : Fin L)
    (n_eq n_steps : ℕ) (J : ℚ) (bits : Fin L × Fin L → Fin 2)
    (eqOr measOr : List (List (Rand L))) (result : ℚ × List ℚ) : Prop :=
  eqOr.length = n_eq ∧ measOr.length = n_steps ∧
  ∃ (latEq : Lattice L) (lats : List (Lattice L)),
    Trials (metropolis_step_nb (1 / T) J 0) (init_lattice_nb bits) eqOr latEq ∧
    TrialsTrace (metropolis_step_nb (1 / T) J 0) latEq measOr lats ∧
    result = (mAvgOf lats n_steps, corrCol lats col n_steps)

lemma shiftR_zero {L : ℕ} (i : Fin L) : shiftR i 0 = i := by
  apply Fin.ext
  show (i.1 + 0) % L = i.1
  rw [Nat.add_zero, Nat.mod_eq_of_lt i.2]

lemma list_sum_ones {α : Type _} (l : List α) :
    (l.map (fun _ => (1 : ℚ))).sum = (l.length : ℚ) := by
  induction l with
  | nil => simp
  | cons a t ih => simp [ih, add_comm]

lemma pairAvg_zero {L : ℕ} {lat : Lattice L} (hs : isSpinLat lat)
    (hL : 1 ≤ L) : pairAvg lat 0 = 1 := by
  unfold pairAvg
  have hsum : (∑ p : Fin L × Fin L, lat p * lat (shiftR p.1 0, p.2)) =
      (L * L : ℤ) := by
    have h1 : ∀ p : Fin L × Fin L, lat p * lat (shiftR p.1 0, p.2) = 1 := by
      intro p
      rw [shiftR_zero, Prod.mk.eta]
      rcases hs p with h | h <;> rw [h] <;> norm_num
    rw [Finset.sum_congr rfl (fun p _ => h1 p), Finset.sum_const,
      Finset.card_univ, Fintype.card_prod, Fintype.card_fin]
    simp
  rw [hsum]
  have hL0 : ((L : ℚ) * L) ≠ 0 := by
    have : (0 : ℚ) < (L : ℚ) := by exact_mod_cast (by omega : 0 < L)
    positivity
  push_cast
  field_simp

lemma shiftAvg_zero {L : ℕ} (lat : Lattice L) : shiftAvg lat 0 = mInst lat := by
  unfold shiftAvg mInst totalSum
  congr 2
  exact Finset.sum_congr rfl (fun p _ => by rw [shiftR_zero, Prod.mk.eta])

lemma colBar_zero {L : ℕ} {lat : Lattice L} (hs : isSpinLat lat)
    (hL : 1 ≤ L) (col : Fin L) : colBar lat col 0 = 1 := by
  unfold colBar
  have hsum : (∑ i : Fin L, lat (i, col) * lat (shiftR i 0, col)) = (L : ℤ) := by
    have h1 : ∀ i : Fin L, lat (i, col) * lat (shiftR i 0, col) = 1 := by
      intro i
      rw [shiftR_zero]
      rcases hs (i, col) with h | h <;> rw [h] <;> norm_num
    rw [Finset.sum_congr rfl (fun i _ => h1 i), Finset.sum_const,
      Finset.card_univ, Fintype.card_fin]
    simp
  rw [hsum]
  have hL0 : (L : ℚ) ≠ 0 := by
    exact_mod_cast (by omega : L ≠ 0)
  field_simp

/-- Claim C8 (amended): for every run with n_steps ≥ 1, the correlation array
at separation r = 0 equals `1 − m_avg²` — the connected correlator, in which
the raw mean-square spin (which is 1) has the product of means subtracted —
for both the full-lattice and the column accumulators; it equals 1 only when
the time-averaged magnetization vanishes. -/
theorem c8_correlation_at_zero {L : ℕ} (hL : 1 ≤ L) :
    (∀ (T h J : ℚ) (n_eq n_steps : ℕ) (bits : Fin L × Fin L → Fin 2)
        (eqOr measOr : List (List (Rand L))) (result : ℚ × List ℚ),
        1 ≤ n_steps →
        measure_spin_stats_explicit_nb T h n_eq n_steps J bits eqOr measOr result →
        result.2.headD 0 = 1 - result.1 * result.1) ∧
    (∀ (T J : ℚ) (col : Fin L) (n_eq n_steps : ℕ)
        (bits : Fin L × Fin L → Fin 2)
        (eqOr measOr : List (List (Rand L))) (result : ℚ × List ℚ),
        1 ≤ n_steps →
        measure_column_correlation_nb T col n_eq n_steps J bits eqOr measOr result →
        result.2.headD 0 = 1 - result.1 ^ 2) := by
  constructor
  · intro T h J n_eq n_steps bits eqOr measOr result hns hrel
    obtain ⟨_, hms, latEq, lats, heq, htr, hres⟩ := hrel
    have hspinEq : isSpinLat latEq :=
      Trials_pred heq (fun _ _ _ hsw hp => sweep_spin hsw hp) (isSpinLat_init bits)
    have hlats : ∀ l ∈ lats, isSpinLat l :=
      TrialsTrace_pred htr (fun _ _ _ hsw hp => sweep_spin hsw hp) hspinEq
    have hlen : lats.length = n_steps := by
      rw [TrialsTrace_length htr, hms]
    have hn0 : (n_steps : ℚ) ≠ 0 := by
      exact_mod_cast (by omega : n_steps ≠ 0)
    rw [hres]
    show (corrFull lats n_steps).headD 0 =
      1 - mAvgOf lats n_steps * mAvgOf lats n_steps
    unfold corrFull
    rw [List.range_succ_eq_map, List.map_cons, List.headD_cons]
    have h1 : lats.map (fun lat => pairAvg lat 0) = lats.map (fun _ => (1 : ℚ)) :=
      List.map_congr_left (fun l hl => pairAvg_zero (hlats l hl) hL)
    have h2 : lats.map (fun lat => shiftAvg lat 0) = lats.map mInst :=
      List.map_congr_left (fun l _ => shiftAvg_zero l)
    rw [h1, h2, list_sum_ones, hlen]
    rw [div_self hn0]
    rfl
  · intro T J col n_eq n_steps bits eqOr measOr result hns hrel
    obtain ⟨_, hms, latEq, lats, heq, htr, hres⟩ := hrel
    have hspinEq : isSpinLat latEq :=
      Trials_pred heq (fun _ _ _ hsw hp => sweep_spin hsw hp) (isSpinLat_init bits)
    have hlats : ∀ l ∈ lats, isSpinLat l :=
      TrialsTrace_pred htr (fun _ _ _ hsw hp => sweep_spin hsw hp) hspinEq
    have hlen : lats.length = n_steps := by
      rw [TrialsTrace_length htr, hms]
    have hn0 : (n_steps : ℚ) ≠ 0 := by
      exact_mod_cast (by omega : n_steps ≠ 0)
    rw [hres]
    show (corrCol lats col n_steps).headD 0 = 1 - (mAvgOf lats n_steps) ^ 2
    unfold corrCol
    rw [List.range_succ_eq_map, List.map_cons, List.headD_cons]
    have h1 : lats.map (fun lat => colBar lat col 0) =
        lats.map (fun _ => (1 : ℚ)) :=
      List.map_congr_left (fun l hl => colBar_zero (hlats l hl) hL col)
    rw [h1, list_sum_ones, hlen, div_self hn0]

lemma init_ones1 : init_lattice_nb (L := 1) (fun _ => 1) = latOne1 := rfl

lemma flip_latOne1 : flipAt latOne1 0 0 = fun _ => (-1 : ℤ) := by
  funext p
  have hp : p = (0, 0) := Subsingleton.elim _ _
  rw [hp, flipAt, Function.update_same]
  rfl

/-- Witness for C8's amended theorem: a concrete one-sweep run on the 1×1
lattice whose single accepted flip leaves m_avg = −1, for both accumulators. -/
theorem c8_correlation_at_zero_witness :
    ((mAvgOf [flipAt latOne1 0 0] 1, corrFull [flipAt latOne1 0 0] 1).2.headD 0 =
      1 - (mAvgOf [flipAt latOne1 0 0] 1, corrFull [flipAt latOne1 0 0] 1).1 *
        (mAvgOf [flipAt latOne1 0 0] 1, corrFull [flipAt latOne1 0 0] 1).1) ∧
    ((mAvgOf [flipAt latOne1 0 0] 1,
        corrCol [flipAt latOne1 0 0] 0 1).2.headD 0 =
      1 - (mAvgOf [flipAt latOne1 0 0] 1,
        corrCol [flipAt latOne1 0 0] 0 1).1 ^ 2) :=
  ⟨(c8_correlation_at_zero (L := 1) (by norm_num)).1 1 (-4) 1 0 1 (fun _ => 1)
      [] [[⟨0, 0, 0⟩]] _ (by norm_num)
      ⟨rfl, rfl, init_lattice_nb (fun _ => 1), [flipAt latOne1 0 0],
        Trials.nil _,
        TrialsTrace.cons
          ⟨rfl, Trials.cons
            (Or.inl ⟨Or.inl (by
              rw [init_ones1]
              norm_num [delta_energy_nb, neighborSum, latOne1]), rfl⟩)
            (Trials.nil _)⟩
          (TrialsTrace.nil _),
        rfl⟩,
   (c8_correlation_at_zero (L := 1) (by norm_num)).2 1 (-1) 0 0 1 (fun _ => 1)
      [] [[⟨0, 0, 0⟩]] _ (by norm_num)
      ⟨rfl, rfl, init_lattice_nb (fun _ => 1), [flipAt latOne1 0 0],
        Trials.nil _,
        TrialsTrace.cons
          ⟨rfl, Trials.cons
            (Or.inl ⟨Or.inl (by
              rw [init_ones1]
              norm_num [delta_energy_nb, neighborSum, latOne1]), rfl⟩)
            (Trials.nil _)⟩
          (TrialsTrace.nil _),
        rfl⟩⟩

/-- Counterexample to C8 as stated: a concrete run (L = 1, one sweep whose
flip is accepted because ΔE = 0 at h = −4) returns correlation 0 at r = 0,
not the mean-square spin 1 — the code subtracts the product of means. -/
theorem c8_counterexample :
    measure_spin_stats_explicit_nb (L := 1) 1 (-4) 0 1 1 (fun _ => 1) []
      [[⟨0, 0, 0⟩]] ((-1 : ℚ), [0]) ∧
    ¬ (([(0 : ℚ)]).headD 0 = 1) := by
  refine ⟨⟨rfl, rfl, init_lattice_nb (fun _ => 1), [flipAt latOne1 0 0],
    Trials.nil _,
    TrialsTrace.cons
      ⟨rfl, Trials.cons
        (Or.inl ⟨Or.inl (by
          rw [init_ones1]
          norm_num [delta_energy_nb, neighborSum, latOne1]), rfl⟩)
        (Trials.nil _)⟩
      (TrialsTrace.nil _),
    ?_⟩, by norm_num⟩
  rw [flip_latOne1, Prod.mk.injEq]
  constructor
  · symm
    norm_num [mAvgOf, mInst, totalSum, Fintype.sum_prod_type, Fin.sum_univ_one]
  · symm
    norm_num [corrFull, pairAvg, shiftAvg, mAvgOf, mInst, totalSum,
      List.range_succ, Fintype.sum_prod_type, Fin.sum_univ_one]

/-- The epsilon floor `1e-30` of line 474. -/
def whamEps : ℚ := 1 / 10 ^ 30

/-- The convergence tolerance `1e-6` of line 490. -/
def whamTol : ℚ := 1 / 10 ^ 6

/-- Ternary pointwise zip (the broadcast `n_k[:, None] * exp(...)` over
windows). -/
def zip3With {α β γ δ : Type _} (f : α → β → γ → δ) :
    List α → List β → List γ → List δ
  | a :: as, b :: bs, c :: cs => f a b c :: zip3With f as bs cs
  | _, _, _ => []

/-- Elementwise addition of two equal-length vectors. -/
def listAdd (a b : List ℚ) : List ℚ := List.zipWith (fun x y => x + y) a b

/-- `np.sum(..., axis=0)`: elementwise sum of a list of vectors. -/
def sumListsOn (z : List ℚ) (ls : List (List ℚ)) : List ℚ := ls.foldl listAdd z

/-- `scipy.integrate.trapezoid(y, x)`: the trapezoidal rule on sample points. -/
def trapz : List ℚ → List ℚ → ℚ
  | y1 :: y2 :: ys, x1 :: x2 :: xs =>
      (x2 - x1) * (y1 + y2) / 2 + trapz (y2 :: ys) (x2 :: xs)
  | _, _ => 0

/-- `np.max(np.abs(f_new - f))` (all entries are absolute values, so the
fold with base 0 is the true maximum on nonempty input). -/
def maxAbsDiff (a b : List ℚ) : ℚ :=
  (List.zipWith (fun x y => |x - y|) a b).foldl max 0

/-- The inputs of `wham_us` (line 455), together with the two transcendental
functions `np.exp` and `np.log` it consumes, taken as explicit function
parameters of the embedding: the embedded solver is exact rational
arithmetic parametric in them, and every claim about the solver's control
flow is proved for all such functions. -/
structure WhamIn where
  expF : ℚ → ℚ
  logF : ℚ → ℚ
  hist_list : List (List ℚ)
  Mgrid : List ℚ
  k_bias : ℚ
  M0_list : List ℚ
  beta : ℚ

/-- The per-window bias potentials
`V = [0.5 * k_bias * (Mgrid - M0)**2 for M0 in M0_list]` (line 472). -/
def whamV (w : WhamIn) : List (List ℚ) :=
  w.M0_list.map (fun M0 => w.Mgrid.map (fun m => (1 / 2) * w.k_bias * (m - M0) ^ 2))

/-- `n_k = H.sum(axis=1)`: total sample count per window. -/
def whamNk (w : WhamIn) : List ℚ := w.hist_list.map List.sum

/-- `totalH = H.sum(axis=0)`. -/
def whamTotalH (w : WhamIn) : List ℚ :=
  sumListsOn (w.Mgrid.map (fun _ => 0)) w.hist_list

/-- One iteration of the WHAM fixed point (lines 478-488): the masked
denominator, the normalized unbiased probability, and the updated
free-energy offsets `f_new`. -/
def whamIter (w : WhamIn) (f : List ℚ) : List ℚ × List ℚ :=
  let denom := sumListsOn (w.Mgrid.map (fun _ => 0))
    (zip3With (fun nk fk Vk => Vk.map (fun v => nk * w.expF (w.beta * (fk - v))))
      (whamNk w) f (whamV w))
  let P0 := List.zipWith (fun hT d => if whamEps < d then hT / d else 0)
    (whamTotalH w) denom
  let t := trapz P0 w.Mgrid
  let P := P0.map (fun p => p / t)
  let fNew := (whamV w).map (fun Vk =>
    -w.logF (trapz (List.zipWith (fun p v => p * w.expF (-w.beta * v)) P Vk)
      w.Mgrid + whamEps) / w.beta)
  (P, fNew)

/-- The capped iteration `for _ in range(5000)` with the early exit of
lines 490-492: stop as soon as `max |f_new - f| < 1e-6`, else continue with
the new iterate; when fuel runs out, the values of the last executed
iteration are returned. -/
def whamLoop (w : WhamIn) : ℕ → List ℚ → List ℚ → List ℚ × List ℚ
  | 0, P, f => (P, f)
  | n + 1, _P, f =>
      let pr := whamIter w f
      if maxAbsDiff pr.2 f < whamTol then pr else whamLoop w n pr.1 pr.2

/-- Embeds `wham_us` (lines 455-496): run the capped fixed-point iteration
from `f = 0` and return the final probability together with
`F = -log(P + eps) / beta`. The return value is a plain pair — no
convergence flag accompanies it. -/
def wham_us (w : WhamIn) : List ℚ × List ℚ :=
  ((whamLoop w 5000 (w.Mgrid.map (fun _ => 0)) ((whamNk w).map (fun _ => 0))).1,
   (whamLoop w 5000 (w.Mgrid.map (fun _ => 0))
       ((whamNk w).map (fun _ => 0))).1.map
     (fun p => -w.logF (p + whamEps) / w.beta))

/-- The sequence of free-energy iterates, ignoring the early exit. -/
def whamF (w : WhamIn) : ℕ → List ℚ
  | 0 => (whamNk w).map (fun _ => 0)
  | n + 1 => (whamIter w (whamF w n)).2

/-- The stopping test as evaluated during iteration `n + 1`. -/
def whamCond (w : WhamIn) (n : ℕ) : Prop :=
  maxAbsDiff (whamF w (n + 1)) (whamF w n) < whamTol

/-- The solver reaches its tolerance within the 5000-iteration cap. -/
def whamConverges (w : WhamIn) : Prop := ∃ n, n < 5000 ∧ whamCond w n

/-- A convergent single-window instance: zero bias, so the first iterate is
already a fixed point. -/
def whamX : WhamIn := ⟨fun _ => 1, fun _ => 0, [[1, 1]], [0, 2], 0, [0], 1⟩

/-- A non-convergent instance: the (adversarially chosen) exp and log make
the free-energy offset oscillate between 0 and 1 forever, while the final
probability and free-energy vectors coincide with those of `whamX`. -/
def whamY : WhamIn :=
  ⟨fun q => if q = -2 then 2 else 1,
   fun q => if q = 4 / 3 + whamEps then -1 else 0,
   [[1, 1]], [0, 2], 1, [0], 1⟩

lemma iterY0 : whamIter whamY [0] = ([2/3, 1/3], [1]) := by
  norm_num [whamIter, whamY, whamV, whamNk, whamTotalH, sumListsOn, listAdd,
    zip3With, trapz, whamEps]

lemma iterY1 : whamIter whamY [1] = ([1/2, 1/2], [0]) := by
  norm_num [whamIter, whamY, whamV, whamNk, whamTotalH, sumListsOn, listAdd,
    zip3With, trapz, whamEps]

lemma iterX0 : whamIter whamX [0] = ([1/2, 1/2], [0]) := by
  norm_num [whamIter, whamX, whamV, whamNk, whamTotalH, sumListsOn, listAdd,
    zip3With, trapz, whamEps]

lemma loopY_step (m : ℕ) (P : List ℚ) :
    whamLoop whamY (m + 2) P [0] = whamLoop whamY m [1/2, 1/2] [0] := by
  have h1 : whamLoop whamY (m + 2) P [0] =
      whamLoop whamY (m + 1) [2/3, 1/3] [1] := by
    simp only [whamLoop, iterY0]
    rw [if_neg (by norm_num [maxAbsDiff, whamTol])]
  have h2 : whamLoop whamY (m + 1) [2/3, 1/3] [1] =
      whamLoop whamY m [1/2, 1/2] [0] := by
    simp only [whamLoop, iterY1]
    rw [if_neg (by norm_num [maxAbsDiff, whamTol])]
  rw [h1, h2]

lemma whamF_Y : ∀ n : ℕ,
    whamF whamY (2 * n) = [0] ∧ whamF whamY (2 * n + 1) = [1] := by
  intro n
  induction n with
  | zero =>
      constructor
      · rfl
      · show (whamIter whamY (whamF whamY 0)).2 = [1]
        rw [show whamF whamY 0 = [0] from rfl, iterY0]
  | succ n ih =>
      have h1 : 2 * (n + 1) = (2 * n + 1) + 1 := by ring
      have h2 : whamF whamY (2 * (n + 1)) = [0] := by
        rw [h1]
        show (whamIter whamY (whamF whamY (2 * n + 1))).2 = [0]
        rw [ih.2, iterY1]
      refine ⟨h2, ?_⟩
      show (whamIter whamY (whamF whamY (2 * (n + 1)))).2 = [1]
      rw [h2, iterY0]

lemma notConvY : ¬ whamConverges whamY := by
  rintro ⟨n, _, hc⟩
  unfold whamCond at hc
  rcases Nat.even_or_odd n with ⟨m, hm⟩ | ⟨m, hm⟩
  · have hn : n = 2 * m := by omega
    subst hn
    rw [(whamF_Y m).2, (whamF_Y m).1] at hc
    norm_num [maxAbsDiff, whamTol] at hc
  · have hn : n = 2 * m + 1 := by omega
    subst hn
    have h2 : (2 * m + 1) + 1 = 2 * (m + 1) := by ring
    rw [h2, (whamF_Y (m + 1)).1, (whamF_Y m).2] at hc
    norm_num [maxAbsDiff, whamTol] at hc

lemma loopY_even : ∀ (n : ℕ) (P : List ℚ),
    whamLoop whamY (2 * n + 2) P [0] = ([1/2, 1/2], [0]) := by
  intro n
  induction n with
  | zero => intro P; rw [show 2 * 0 + 2 = 0 + 2 from rfl, loopY_step]; rfl
  | succ n ih =>
      intro P
      have h : 2 * (n + 1) + 2 = (2 * n + 2) + 2 := by ring
      rw [h, loopY_step]
      exact ih _

lemma whamY_us : wham_us whamY = ([1/2, 1/2], [0, 0]) := by
  unfold wham_us
  have hf0 : (whamNk whamY).map (fun _ => (0 : ℚ)) = [0] := rfl
  have h50 : (5000 : ℕ) = 2 * 2499 + 2 := by norm_num
  rw [hf0, h50, loopY_even]
  norm_num [whamY, whamEps]

lemma whamLoop_stop (w : WhamIn) (m : ℕ) (P f : List ℚ)
    (h : maxAbsDiff (whamIter w f).2 f < whamTol) :
    whamLoop w (m + 1) P f = whamIter w f := by
  simp only [whamLoop]
  rw [if_pos h]

lemma whamX_us : wham_us whamX = ([1/2, 1/2], [0, 0]) := by
  unfold wham_us
  have hf0 : (whamNk whamX).map (fun _ => (0 : ℚ)) = [0] := rfl
  have hloop : whamLoop whamX 5000 (whamX.Mgrid.map (fun _ => 0)) [0] =
      ([1/2, 1/2], [0]) := by
    rw [show (5000 : ℕ) = 4999 + 1 from rfl]
    rw [whamLoop_stop whamX 4999 _ [0]
      (by rw [iterX0]; norm_num [maxAbsDiff, whamTol])]
    exact iterX0
  rw [hf0, hloop]
  norm_num [whamX, whamEps]

lemma convX : whamConverges whamX := by
  refine ⟨0, by norm_num, ?_⟩
  unfold whamCond
  rw [show whamF whamX 1 = (whamIter whamX (whamF whamX 0)).2 from rfl,
    show whamF whamX 0 = [0] from rfl, iterX0]
  norm_num [maxAbsDiff, whamTol]

lemma whamLoop_succ_pos (w : WhamIn) (fuel : ℕ) (P : List ℚ) (k : ℕ)
    (hc : whamCond w k) :
    whamLoop w (fuel + 1) P (whamF w k) = whamIter w (whamF w k) := by
  have hc' : maxAbsDiff (whamIter w (whamF w k)).2 (whamF w k) < whamTol := hc
  simp only [whamLoop]
  rw [if_pos hc']

lemma whamLoop_succ_neg (w : WhamIn) (fuel : ℕ) (P : List ℚ) (k : ℕ)
    (hc : ¬ whamCond w k) :
    whamLoop w (fuel + 1) P (whamF w k) =
      whamLoop w fuel (whamIter w (whamF w k)).1 (whamF w (k + 1)) := by
  have hc' : ¬ maxAbsDiff (whamIter w (whamF w k)).2 (whamF w k) < whamTol := hc
  simp only [whamLoop]
  rw [if_neg hc']
  rfl

/-- The capped loop started at iterate `k` runs to the first convergent
iteration, or to the end of its fuel. -/
lemma whamLoop_char (w : WhamIn) :
    ∀ (fuel k : ℕ) (P : List ℚ), 1 ≤ fuel →
      ∃ n, 1 ≤ n ∧ n ≤ fuel ∧
        whamLoop w fuel P (whamF w k) = whamIter w (whamF w (k + n - 1)) ∧
        (∀ m, k ≤ m → m + 1 < k + n → ¬ whamCond w m) ∧
        (n < fuel → whamCond w (k + n - 1)) := by
  intro fuel
  induction fuel with
  | zero => intro k P h; omega
  | succ fuel ih =>
      intro k P _
      by_cases hc : whamCond w k
      · refine ⟨1, le_refl _, by omega, ?_, ?_, ?_⟩
        · rw [whamLoop_succ_pos _ _ _ _ hc]
          have h : k + 1 - 1 = k := by omega
          rw [h]
        · intro m h1 h2
          omega
        · intro _
          have h : k + 1 - 1 = k := by omega
          rw [h]
          exact hc
      · cases fuel with
        | zero =>
            refine ⟨1, le_refl _, le_refl _, ?_, ?_, ?_⟩
            · rw [whamLoop_succ_neg _ _ _ _ hc]
              have h : k + 1 - 1 = k := by omega
              rw [h]
              show ((whamIter w (whamF w k)).1, (whamIter w (whamF w k)).2) =
                whamIter w (whamF w k)
              exact Prod.mk.eta
            · intro m h1 h2
              omega
            · intro h
              omega
        | succ fuel' =>
            obtain ⟨n, hn1, hn2, heq, hnot, hcond⟩ :=
              ih (k + 1) (whamIter w (whamF w k)).1 (by omega)
            refine ⟨n + 1, by omega, by omega, ?_, ?_, ?_⟩
            · rw [whamLoop_succ_neg _ _ _ _ hc, heq]
              have h : k + 1 + n - 1 = k + (n + 1) - 1 := by omega
              rw [h]
            · intro m hm1 hm2
              by_cases hmk : m = k
              · subst hmk
                exact hc
              · exact hnot m (by omega) (by omega)
            · intro hlt
              have h : k + 1 + n - 1 = k + (n + 1) - 1 := by omega
              rw [← h]
              exact hcond (by omega)

/-- Claim C7 (amended): for every input (and every exp/log), the WHAM solver
runs at most 5000 fixed-point iterations, stopping at the first iteration
whose maximum absolute change in the `f_k` falls below 1e-6; if no iteration
converges within the cap it raises no exception and returns the 5000th
iterate as a best-effort result — but the returned pair `(P, F)` carries no
convergence indicator. -/
theorem c7_wham_termination (w : WhamIn) :
    ∃ n, 1 ≤ n ∧ n ≤ 5000 ∧
      wham_us w = ((whamIter w (whamF w (n - 1))).1,
        (whamIter w (whamF w (n - 1))).1.map
          (fun p => -w.logF (p + whamEps) / w.beta)) ∧
      (∀ m, m + 1 < n → ¬ whamCond w m) ∧
      (n < 5000 → whamCond w (n - 1)) ∧
      (¬ whamConverges w → n = 5000) := by
  obtain ⟨n, h1, h2, heq, hnot, hcond⟩ :=
    whamLoop_char w 5000 0 (w.Mgrid.map (fun _ => 0)) (by norm_num)
  have hzn : 0 + n - 1 = n - 1 := by omega
  rw [hzn] at heq hcond
  refine ⟨n, h1, h2, ?_, ?_, ?_, ?_⟩
  · unfold wham_us
    rw [show (whamNk w).map (fun _ => (0 : ℚ)) = whamF w 0 from rfl, heq]
  · intro m hm
    exact hnot m (Nat.zero_le m) (by omega)
  · exact hcond
  · intro hnc
    by_contra hne
    have hlt : n < 5000 := by omega
    exact hnc ⟨n - 1, by omega, hcond hlt⟩

/-- Counterexample to C7 as stated: no convergence indicator is returned.
The convergent input `whamX` and the non-convergent input `whamY` produce
identical outputs, so no function of the returned value can report whether
the iteration converged. -/
theorem c7_counterexample :
    wham_us whamX = wham_us whamY ∧
    whamConverges whamX ∧ ¬ whamConverges whamY :=
  ⟨by rw [whamX_us, whamY_us], convX, notConvY⟩

end Ising
